import Mathlib

/-!
# Shallow embedding of the NematXSlicer wipe subsystem (`src/libslic3r/GCode/Wipe.cpp`)

Coordinates are modelled as exact real numbers:
* the fixed-point `coord_t` scaling (`scaled`/`unscaled`) is the identity in the model,
  i.e. all coordinates live in one common unit;
* `double`/`float` arithmetic is idealized as real arithmetic;
* the `int64_t` running length estimate of `set_path` is idealized as a real number.

External collaborators (the repository code outside `src/`) are modelled from the spec:
* `Geometry::ArcWelder` primitives (`arc_angle`, `arc_center`, `segment_length`,
  `estimate_path_length`, `reverse`) — the spec describes segment lengths as
  `linear: Euclidean; arc: |radius| * angle`; the angle/center computations are kept
  abstract as fields of the `Geo` structure;
* the G-code writer / quantizer / configuration snapshot — kept abstract as fields of
  the `GenParams` structure;
* `angle_ccw` — abstract field of `Geo`.
-/

namespace NematX

noncomputable section

open scoped Classical

/-- 2D point / vector, as in `Vec2d` and (idealized) `Point`. -/
abbrev Vec2 : Type := ℝ × ℝ

/-- Squared Euclidean norm (`Eigen`'s `squaredNorm`). -/
def sqnorm (v : Vec2) : ℝ := v.1 ^ 2 + v.2 ^ 2

/-- Euclidean norm (`Eigen`'s `norm`). -/
def vnorm (v : Vec2) : ℝ := Real.sqrt (sqnorm v)

/-- Counter-clockwise rotation of a vector by `θ` (`Eigen::Rotation2D`). -/
def rot (θ : ℝ) (v : Vec2) : Vec2 :=
  (Real.cos θ * v.1 - Real.sin θ * v.2, Real.sin θ * v.1 + Real.cos θ * v.2)

/-- Rotation about a center, `Point::rotated(angle, center)`. -/
def rotAbout (θ : ℝ) (center p : Vec2) : Vec2 := center + rot θ (p - center)

/-- `Eigen`'s `normalized()`: `v / ‖v‖` (the zero vector is mapped to zero in the model;
in C++ it would produce NaN components). -/
def normalize (v : Vec2) : Vec2 := (vnorm v)⁻¹ • v

/-- One vertex of an `ArcWelder` path (`Geometry::ArcWelder::Segment`): the end point of
the segment leading to it, with `radius = 0` marking a linear segment and otherwise a
circular arc of the given signed radius and winding direction. -/
structure Segment where
  point : Vec2
  radius : ℝ
  ccw : Bool

instance : Inhabited Segment := ⟨⟨(0, 0), 0, false⟩⟩

/-- `Segment::linear()`: the segment is a straight line iff its radius is zero. -/
def Segment.linear (s : Segment) : Prop := s.radius = 0

/-- An `ExtrusionPath` as seen by the wipe subsystem: its smooth polyline
(`as_polyline().get_arc()`) and its bridge role flag (`role().is_bridge()`). -/
structure ExtrusionPath where
  polyline : List Segment
  isBridge : Bool

instance : Inhabited ExtrusionPath := ⟨⟨[], false⟩⟩

/-- `ExtrusionPath::first_point()` (the first vertex of the polyline). -/
def ExtrusionPath.firstPt (p : ExtrusionPath) : Vec2 := (p.polyline.headD default).point

/-- `ExtrusionPath::last_point()` (the last vertex of the polyline). -/
def ExtrusionPath.lastPt (p : ExtrusionPath) : Vec2 := (p.polyline.getLastD default).point

/-- Modelled from the spec: the external geometry primitives consumed by `Wipe.cpp`
(`Geometry::ArcWelder::arc_angle`, `Geometry::ArcWelder::arc_center`, `angle_ccw`),
kept abstract. -/
structure Geo where
  arcAngle : Vec2 → Vec2 → ℝ → ℝ
  arcCenter : Vec2 → Vec2 → ℝ → Bool → Vec2
  angleCCW : Vec2 → Vec2 → ℝ

/-- Length of one path segment from the previous vertex `prev` to the vertex `s`
(`Geometry::ArcWelder::segment_length`, modelled from the spec:
linear segments by Euclidean distance, arc segments by `|radius| * angle`). -/
def segLen (g : Geo) (prev : Vec2) (s : Segment) : ℝ :=
  if s.radius = 0 then vnorm (s.point - prev) else |s.radius| * g.arcAngle prev s.point s.radius

/-- Sum of the segment lengths of a polyline tail, walking from `prev`. -/
def polyLenFrom (g : Geo) : Vec2 → List Segment → ℝ
  | _, [] => 0
  | prev, s :: rest => segLen g prev s + polyLenFrom g s.point rest

/-- Total length of a polyline (sum of the lengths of its segments); also the model of
`Geometry::ArcWelder::estimate_path_length` (spec: "running estimated arc-length total",
idealized to the exact length). -/
def polyLen (g : Geo) : List Segment → ℝ
  | [] => 0
  | s :: rest => polyLenFrom g s.point rest

/-- Total length of a sequence of extrusion paths: each path contributes the length of
its own polyline (the walks in `Wipe.cpp` restart `prev_point` at each path). -/
def totalLen (g : Geo) (paths : List ExtrusionPath) : ℝ :=
  (paths.map (fun p => polyLen g p.polyline)).sum

/-- The per-polyline walk of `longer_than` (`Wipe.cpp:270-277`): subtract each segment
length from the running threshold, returning `none` as soon as it drops below zero
(the C++ early `return true`); `some l` is the updated threshold when the polyline is
exhausted. -/
def longerPoly (g : Geo) : Vec2 → ℝ → List Segment → Option ℝ
  | _, l, [] => some l
  | prev, l, s :: rest =>
    let l2 := l - segLen g prev s
    if l2 < 0 then none else longerPoly g s.point l2 rest

/-- The outer loop of `longer_than` over the path list (an empty polyline is skipped;
in C++ it would be undefined behaviour of the iterator arithmetic). -/
def longerPaths (g : Geo) : ℝ → List ExtrusionPath → Option ℝ
  | l, [] => some l
  | l, p :: ps =>
    match p.polyline with
    | [] => longerPaths g l ps
    | s :: rest =>
      match longerPoly g s.point l rest with
      | none => none
      | some l2 => longerPaths g l2 ps

/-- `longer_than(paths, length)` (`Wipe.cpp:268-279`): true if the total path length
strictly exceeds `length`, with early exit once the running threshold goes negative. -/
def longer_than (g : Geo) (paths : List ExtrusionPath) (length : ℝ) : Bool :=
  match longerPaths g length paths with
  | none => true
  | some l => decide (l < 0)

/-- The per-polyline walk shared by `sample_path_point_at_distance_from_start`
(`Wipe.cpp:293-316`) and `sample_path_point_at_distance_from_end` (`Wipe.cpp:331-355`),
whose loop bodies are character-for-character identical in the source: walk the
polyline tail from `prev`, returning `Sum.inr` with the sampled point once a segment
covers the remaining distance, or `Sum.inl` with the remaining distance. -/
def samplePoly (g : Geo) : Vec2 → ℝ → List Segment → ℝ ⊕ Vec2
  | _, d, [] => Sum.inl d
  | prev, d, s :: rest =>
    if s.radius = 0 then
      -- Linear segment
      let v := s.point - prev
      let lsqr := sqnorm v
      if lsqr > d ^ 2 then Sum.inr (prev + (d / Real.sqrt lsqr) • v)
      else
        let d2 := d - Real.sqrt lsqr
        if d2 < 0 then Sum.inr s.point else samplePoly g s.point d2 rest
    else
      -- Circular segment
      let angle := g.arcAngle prev s.point s.radius
      let len := |s.radius| * angle
      if len > d then
        Sum.inr (rotAbout (-angle * (d / len)) (g.arcCenter prev s.point s.radius s.ccw) prev)
      else
        let d2 := d - len
        if d2 < 0 then Sum.inr s.point else samplePoly g s.point d2 rest

/-- The outer loop of the samplers over the path list (an empty polyline is skipped;
in C++ it would dereference an invalid iterator). -/
def sampleWalk (g : Geo) : ℝ → List ExtrusionPath → Option Vec2
  | _, [] => none
  | d, p :: ps =>
    match p.polyline with
    | [] => sampleWalk g d ps
    | s :: rest =>
      match samplePoly g s.point d rest with
      | Sum.inr pt => some pt
      | Sum.inl d2 => sampleWalk g d2 ps

/-- `sample_path_point_at_distance_from_start(paths, distance)` (`Wipe.cpp:285-321`). -/
def sample_path_point_at_distance_from_start (g : Geo) (paths : List ExtrusionPath)
    (distance : ℝ) : Option Vec2 :=
  if 0 ≤ distance then sampleWalk g distance paths else none

/-- `sample_path_point_at_distance_from_end(paths, distance)` (`Wipe.cpp:323-360`).
The source body is a verbatim copy of `sample_path_point_at_distance_from_start`:
it iterates `paths` and every polyline from the *front*, so it actually samples at
`distance` from the start, not from the end. -/
def sample_path_point_at_distance_from_end (g : Geo) (paths : List ExtrusionPath)
    (distance : ℝ) : Option Vec2 :=
  if 0 ≤ distance then sampleWalk g distance paths else none

/-- Reversal of an arc polyline (`Geometry::ArcWelder::reverse`), modelled from the
spec's data model: reverse the vertex order, transfer each segment's arc
radius/winding to the segment traversed in the opposite direction, and flip the
winding flag. -/
def revSegs (l : List Segment) : List Segment :=
  match l.reverse with
  | [] => []
  | t :: ts =>
    ⟨t.point, 0, false⟩ :: ((t :: ts).zip ts).map (fun pr => ⟨pr.2.point, pr.1.radius, !pr.1.ccw⟩)

/-- Modelled from the spec: sampling "from its end" as the spec describes it for
`sample_path_point_at_distance_from_end` — walk the reversed path sequence from the
front, which measures travel distance from the end of the original sequence. -/
def specSampleFromEnd (g : Geo) (paths : List ExtrusionPath) (distance : ℝ) : Option Vec2 :=
  sample_path_point_at_distance_from_start g
    ((paths.map (fun p => ExtrusionPath.mk (revSegs p.polyline) p.isBridge)).reverse) distance

/-- The `Wipe` entity (`Wipe.hpp`, modelled from the spec's data model): the enabled
flag, the maximum wipe length `m_wipe_len_max`, the cached path `m_path` and the
emission-time offset `m_offset`. -/
structure Wipe where
  enabled : Bool
  wipeLenMax : ℝ
  path : List Segment
  offset : Vec2

/-- The state of the accumulation loop of `set_path`: the cached segments built so
far (`m_path`), the running length estimate (`len`), and — as ghost data for the
provenance claims — the list of input paths whose polylines have been appended so far. -/
structure AccState where
  segs : List Segment
  len : ℝ
  appended : List ExtrusionPath

/-- The endpoint of an input path which must adjoin the accumulated endpoint
(`it->last_point()` in the reversed loop, `it->first_point()` in the forward loop). -/
def adjoinPt (reversed : Bool) (p : ExtrusionPath) : Vec2 :=
  if reversed then p.lastPt else p.firstPt

/-- The vertices of an input path's polyline appended to the cached path: forward,
all vertices after the first (`begin()+1 .. end()`); reversed, the reversed raw
polyline without its first element (`rbegin()+1 .. rend()`). -/
def appendSel (reversed : Bool) (p : ExtrusionPath) : List Segment :=
  if reversed then p.polyline.reverse.tail else p.polyline.tail

/-- One iteration scheme of the two `set_path` loops (`Wipe.cpp:45-56` reversed,
`Wipe.cpp:60-71` forward): while the running length estimate is below the scaled
budget, stop at a bridge path or at a path whose adjoining endpoint differs from the
accumulated endpoint, otherwise add the path's estimated length and append its
polyline vertices. -/
def setPathGo (g : Geo) (budget : ℝ) (reversed : Bool) : AccState → List ExtrusionPath → AccState
  | st, [] => st
  | st, p :: rest =>
    if st.len < budget then
      if p.isBridge then st
      else if (st.segs.getLastD default).point ≠ adjoinPt reversed p then st
      else
        setPathGo g budget reversed
          ⟨st.segs ++ appendSel reversed p, st.len + polyLen g p.polyline,
           st.appended ++ [p]⟩ rest
    else st

/-- The initial cached polyline of `set_path`: the last path's polyline reversed with
`ArcWelder::reverse` (reversed mode, `Wipe.cpp:42-43`) or the first path's polyline
(forward mode, `Wipe.cpp:58`). -/
def setPathInitSegs (paths : List ExtrusionPath) (reversed : Bool) : List Segment :=
  if reversed then revSegs (paths.getLastD default).polyline
  else (paths.headD default).polyline

/-- The input paths visited by the accumulation loop of `set_path`, in visiting
order: the remaining paths walked backward (reversed) or forward. -/
def setPathRest (paths : List ExtrusionPath) (reversed : Bool) : List ExtrusionPath :=
  if reversed then paths.dropLast.reverse else paths.tail

/-- The full accumulation state produced by `Wipe::set_path` when enabled on a
non-empty input (`Wipe.cpp:40-72`). -/
def setPathAcc (g : Geo) (paths : List ExtrusionPath) (reversed : Bool) (w : Wipe) : AccState :=
  setPathGo g w.wipeLenMax reversed
    ⟨setPathInitSegs paths reversed, polyLen g (setPathInitSegs paths reversed), []⟩
    (setPathRest paths reversed)

/-- `Wipe::set_path(paths, reversed)` (`Wipe.cpp:35-76`): clear the cached path, then,
when enabled and the input is non-empty, accumulate a bounded-length trailing (or
leading) portion of the input paths. -/
def Wipe.set_path (g : Geo) (paths : List ExtrusionPath) (reversed : Bool) (w : Wipe) : Wipe :=
  if w.enabled = true ∧ paths ≠ [] then
    { w with path := (setPathAcc g paths reversed w).segs }
  else
    { w with path := [] }

/-- `Wipe::init(config, writer, extruders)` (`Wipe.cpp:12-33`): reset the cached path,
fold the candidate wipe lengths `retract_length / xy_to_e` (and, with more than one
active extruder, `retract_length_toolchange / xy_to_e`) of the wipe-enabled extruders
into a running maximum starting at zero, then disable when the maximum is zero and
enable with the computed budget otherwise. `calc_xy_to_e_ratio` and the configuration
lookups are external and abstracted as the function arguments. -/
def Wipe.init (xyToE : ℕ → ℝ) (wipeEnabled : ℕ → Bool) (retractLen retractLenToolchange : ℕ → ℝ)
    (extruders : List ℕ) (w : Wipe) : Wipe :=
  let multimaterial := 1 < extruders.length
  let wipeXY := extruders.foldl (fun acc id =>
    if wipeEnabled id then
      let acc1 := max acc (retractLen id / xyToE id)
      if multimaterial then max acc1 (retractLenToolchange id / xyToE id) else acc1
    else acc) 0
  if wipeXY = 0 then { w with path := [], enabled := false, wipeLenMax := wipeXY }
  else { w with path := [], enabled := true, wipeLenMax := wipeXY }

/-- Modelled from the spec (§4.1, §8): the wipe budget as the spec words it — "the
maximum over enabled extruders of `retract_length/xy_to_e` (and toolchange variant
when multi-material)". -/
def specWipeBudget (xyToE : ℕ → ℝ) (wipeEnabled : ℕ → Bool)
    (retractLen retractLenToolchange : ℕ → ℝ) (extruders : List ℕ) : ℝ :=
  ((extruders.filter (fun id => wipeEnabled id)).map (fun id =>
    if 1 < extruders.length then
      max (retractLen id / xyToE id) (retractLenToolchange id / xyToE id)
    else retractLen id / xyToE id)).foldr max 0

/-- One machine move emitted during a wipe: the target point, the optional lifted Z
coordinate (`extrude_to_xyz` vs `extrude_to_xy`), the retraction amount `dE` debited
from the budget (the writer receives `-dE`, or `0` under firmware retraction), and the
arc data `(I J, ccw)` for `extrude_arc_to_xy(z)`. The textual G-code line produced by
the external writer is abstracted into this record; the composed output string is
modelled as the list of these moves, empty list standing for the empty string. -/
structure Move where
  target : Vec2
  z : Option ℝ
  dE : ℝ
  arc : Option (Vec2 × Bool)

/-- The mutable state shared by the `wipe_linear` / `wipe_arc` closures of
`Wipe::wipe` (`Wipe.cpp:115-219`): the accumulated output, the remaining retraction
budget `retract_length`, the current lifted height `current_z`, and the extrusion
pushed to `GCodeWriter::add_de_delayed`. -/
structure WalkState where
  gcode : List Move
  retract : ℝ
  currentZ : ℝ
  delayed : ℝ

/-- Modelled from the spec (§6): the writer/generator context consumed by
`Wipe::wipe`, with the external quantizer, configuration lookups and coordinate
transforms abstracted as function fields. `lift` is the resolved
`wipe_lift.get_abs_value(...)` value, `lastPos` is
`point_to_gcode_quantized(gcodegen.last_pos())`, and `eps` is the numeric `EPSILON`
constant of the surrounding library. -/
structure GenParams where
  toolIsExtruder : Bool
  useFirmwareRetract : Bool
  retractLength : ℝ
  retractLengthToolchange : ℝ
  regionRetract : Option ℝ
  retractToGo : ℝ → ℝ
  lift : ℝ
  initialZ : ℝ
  xyToE : ℝ
  quant : Vec2 → Vec2
  quantE : ℝ → ℝ
  precisionXYZ : ℤ
  resolution : ℝ
  pointToGcode : Vec2 → Vec2
  lastPos : Vec2
  eps : ℝ

/-- The minimal segment length below which a wipe segment is skipped
(`Wipe.cpp:123-128`): `max(10^(-gcode_precision_xyz) * 1.5, EPSILON * 10)`, further
raised to `resolution` when the configured resolution is positive. -/
def minSegPrecision (G : GenParams) : ℝ :=
  let p0 := max ((10 : ℝ) ^ (-G.precisionXYZ) * 1.5) (G.eps * 10)
  if G.resolution > 0 then max p0 G.resolution else p0

/-- The common tail of `wipe_linear` / `wipe_arc` (`Wipe.cpp:156-166` and
`Wipe.cpp:206-218`): append the move for the segment (with the Z ramp capped at
`final_z` when a lift is active), debit `dE` from the retraction budget, and hand the
emitted point back as the next `prev`. -/
def emitMove (liftPerMm finalZ segLength : ℝ) (arc : Option (Vec2 × Bool)) (st : WalkState)
    (pt : Vec2) (dE : ℝ) (done : Bool) : WalkState × Vec2 × Bool :=
  if liftPerMm = 0 then
    ({ st with gcode := st.gcode ++ [⟨pt, none, dE, arc⟩], retract := st.retract - dE }, pt, done)
  else
    let z := min finalZ (st.currentZ + segLength * liftPerMm)
    ({ st with
        gcode := st.gcode ++ [⟨pt, some z, dE, arc⟩]
        retract := st.retract - dE
        currentZ := z }, pt, done)

/-- The `wipe_linear` closure (`Wipe.cpp:115-167`): quantize the target, skip
degenerate or below-precision segments, quantize the extrusion delta
`dE = quantize_e(xy_to_e * segment_length)`, shorten the segment proportionally when
`dE` overshoots the remaining budget by more than `EPSILON` (pushing the leftover as
delayed extrusion and finishing when the shortened endpoint quantizes onto `prev`),
cap `dE` at the remaining budget when within `EPSILON` of it, and emit the move. -/
def wipeLinear (G : GenParams) (liftPerMm finalZ : ℝ) (st : WalkState) (prevQ p : Vec2) :
    WalkState × Vec2 × Bool :=
  let pQ := G.quant p
  if pQ = prevQ then (st, prevQ, false)
  else
    let segLength := vnorm (pQ - prevQ)
    if segLength < minSegPrecision G then (st, prevQ, false)
    else
      let dE := G.quantE (G.xyToE * segLength)
      if dE > st.retract - G.eps then
        if dE > st.retract + G.eps then
          let pQ2 := G.quant (prevQ + (st.retract / dE) • (p - prevQ))
          if pQ2 = prevQ then
            ({ st with delayed := if G.useFirmwareRetract then st.delayed
                                  else st.delayed + st.retract }, pQ2, true)
          else emitMove liftPerMm finalZ segLength none st pQ2 st.retract true
        else emitMove liftPerMm finalZ segLength none st pQ st.retract true
      else emitMove liftPerMm finalZ segLength none st pQ dE false

/-- The tail of the `wipe_arc` closure from the quantized `I J` center-offset check on
(`Wipe.cpp:200-218`): a center collapsing onto `prev` after quantization degenerates
to `wipe_linear` on the unmodified target, otherwise the arc move is emitted. -/
def arcFinish (G : GenParams) (liftPerMm finalZ : ℝ) (st : WalkState) (prevQ p : Vec2)
    (ccw : Bool) (center : Vec2) (segLength : ℝ) (pt : Vec2) (dE : ℝ) (done : Bool) :
    WalkState × Vec2 × Bool :=
  let ij := G.quant (center - prevQ)
  if ij = (0, 0) then wipeLinear G liftPerMm finalZ st prevQ p
  else emitMove liftPerMm finalZ segLength (some (ij, ccw)) st pt dE done

/-- The `wipe_arc` closure (`Wipe.cpp:168-219`): quantize the target, degenerate to
`wipe_linear` for zero radius, compute the arc center/angle from the quantized
endpoint, and when the quantized `dE` overshoots the budget by more than `EPSILON`
recompute center/angle/length from the *unquantized* endpoint and rotate `prev` about
the recomputed center by the budget fraction of the angle; then cap `dE` and emit via
the quantized-center check. -/
def wipeArc (g : Geo) (G : GenParams) (liftPerMm finalZ : ℝ) (st : WalkState)
    (prevQ p : Vec2) (radius : ℝ) (ccw : Bool) : WalkState × Vec2 × Bool :=
  let pQ := G.quant p
  if pQ = prevQ then (st, prevQ, false)
  else if radius = 0 then wipeLinear G liftPerMm finalZ st prevQ p
  else
    let center := g.arcCenter prevQ pQ radius ccw
    let angle := g.arcAngle prevQ pQ radius
    let segLength := angle * |radius|
    let dE := G.quantE (G.xyToE * segLength)
    if dE > st.retract - G.eps then
      if dE > st.retract + G.eps then
        let center2 := g.arcCenter prevQ p radius ccw
        let angle2 := g.arcAngle prevQ p radius
        let segLength2 := angle2 * |radius|
        let dE2 := G.xyToE * segLength2
        let pQ2 := G.quant
          (center2 + rot ((if ccw then angle2 else -angle2) * (st.retract / dE2)) (prevQ - center2))
        arcFinish G liftPerMm finalZ st prevQ p ccw center2 segLength2 pQ2 st.retract true
      else arcFinish G liftPerMm finalZ st prevQ p ccw center segLength pQ st.retract true
    else arcFinish G liftPerMm finalZ st prevQ p ccw center segLength pQ dE false

/-- The segment walk of `Wipe::wipe` (`Wipe.cpp:227-239`): for each cached vertex,
apply `wipe_linear` or `wipe_arc` starting from the quantized previous point, stop at
the first segment reported done, and thread the handler-updated point as the next
`prev`. -/
def walkSegs (g : Geo) (G : GenParams) (liftPerMm finalZ : ℝ) (offset : Vec2) :
    WalkState → Vec2 → List Segment → WalkState × Vec2
  | st, prev, [] => (st, prev)
  | st, prev, s :: rest =>
    let p := G.pointToGcode (s.point + offset)
    let r := if s.radius = 0 then wipeLinear G liftPerMm finalZ st prev p
             else wipeArc g G liftPerMm finalZ st prev p s.radius s.ccw
    if r.2.2 then (r.1, r.2.1) else walkSegs g G liftPerMm finalZ offset r.1 r.2.1 rest

/-- The target retraction length of one `wipe()` call before the `retract_to_go`
reduction (`Wipe.cpp:100-105`): the toolchange length on a toolchange, else the
non-negative per-region override when present, else the extruder's nominal length. -/
def targetRetractLength (G : GenParams) (toolchange : Bool) : ℝ :=
  if toolchange then G.retractLengthToolchange
  else
    match G.regionRetract with
    | some v => if 0 ≤ v then v else G.retractLength
    | none => G.retractLength

/-- `Wipe::wipe(gcodegen, toolchange)` (`Wipe.cpp:89-264`), returning the emitted
moves and the updated wipe state. The early return for a tool that is no extruder
(`Wipe.cpp:96-97`) leaves the state untouched; otherwise the cached path is walked
when there is remaining retraction and a cached path, and the cached path is cleared
unconditionally before returning (`Wipe.cpp:252`). The wipe start/end tags and the
speed command wrap a non-empty output only and are not part of the move list. -/
def Wipe.wipe (g : Geo) (G : GenParams) (toolchange : Bool) (w : Wipe) : List Move × Wipe :=
  if G.toolIsExtruder = false then ([], w)
  else
    let rl := G.retractToGo (targetRetractLength G toolchange)
    if 0 < rl ∧ w.path ≠ [] then
      let liftPerMm := G.xyToE * G.lift / rl
      let finalZ := G.initialZ + G.lift
      let st := (walkSegs g G liftPerMm finalZ w.offset ⟨[], rl, G.initialZ, 0⟩ G.lastPos w.path).1
      (st.gcode, { w with path := [] })
    else ([], { w with path := [] })

/-- The winding-based sign normalization of the interior angle in `wipe_hide_seam`
(`Wipe.cpp:403-409`): holes are normalized to a non-positive angle, contours to a
non-negative one, by shifting with a full turn. -/
def normAngle (isHole : Bool) (a : ℝ) : ℝ :=
  if isHole then (if 0 < a then a - 2 * Real.pi else a)
  else (if a < 0 then a + 2 * Real.pi else a)

/-- `wipe_hide_seam(paths, is_hole, wipe_length)` (`Wipe.cpp:366-416`): when the loop
is longer than `2.5 * wipe_length`, sample the loop (checking the seam-hiding gap),
measure the `angle_ccw` between the forward direction to the loop start and the
direction to the sampled point, normalize its sign by the winding, and move by
`wipe_length` along the forward direction rotated by the full normalized angle. -/
def wipe_hide_seam (g : Geo) (paths : List ExtrusionPath) (isHole : Bool) (wipeLength : ℝ) :
    Option Vec2 :=
  if longer_than g paths (2.5 * wipeLength) = true then
    let pCurrent := (paths.getLastD default).lastPt
    let pNext := (paths.headD default).firstPt
    let l := wipeLength - vnorm (pNext - pCurrent)
    if 0 < l ∧ (sample_path_point_at_distance_from_start g paths l).isNone then none
    else
      match sample_path_point_at_distance_from_end g paths wipeLength with
      | none => none
      | some pPrev =>
        let angleInside := normAngle isHole (g.angleCCW (pNext - pCurrent) (pPrev - pCurrent))
        let vRotated := rot angleInside (normalize (pNext - pCurrent))
        some (pCurrent + wipeLength • vRotated)
  else none

/-! ## Basic facts about lengths -/

lemma sqnorm_nonneg (v : Vec2) : 0 ≤ sqnorm v := by
  unfold sqnorm; positivity

lemma vnorm_nonneg (v : Vec2) : 0 ≤ vnorm v := Real.sqrt_nonneg _

lemma segLen_nonneg (g : Geo) (harc : ∀ p q r, 0 ≤ g.arcAngle p q r) (prev : Vec2)
    (s : Segment) : 0 ≤ segLen g prev s := by
  unfold segLen
  split
  · exact vnorm_nonneg _
  · exact mul_nonneg (abs_nonneg _) (harc _ _ _)

lemma polyLenFrom_nonneg (g : Geo) (harc : ∀ p q r, 0 ≤ g.arcAngle p q r) :
    ∀ (segs : List Segment) (prev : Vec2), 0 ≤ polyLenFrom g prev segs := by
  intro segs
  induction segs with
  | nil => intro prev; simp [polyLenFrom]
  | cons s rest ih =>
    intro prev
    simp only [polyLenFrom]
    exact add_nonneg (segLen_nonneg g harc prev s) (ih s.point)

lemma polyLen_nonneg (g : Geo) (harc : ∀ p q r, 0 ≤ g.arcAngle p q r)
    (segs : List Segment) : 0 ≤ polyLen g segs := by
  cases segs with
  | nil => simp [polyLen]
  | cons s rest => exact polyLenFrom_nonneg g harc rest s.point

lemma totalLen_nonneg (g : Geo) (harc : ∀ p q r, 0 ≤ g.arcAngle p q r)
    (paths : List ExtrusionPath) : 0 ≤ totalLen g paths := by
  unfold totalLen
  apply List.sum_nonneg
  intro x hx
  obtain ⟨p, _, rfl⟩ := List.mem_map.1 hx
  exact polyLen_nonneg g harc _

lemma totalLen_cons (g : Geo) (p : ExtrusionPath) (ps : List ExtrusionPath) :
    totalLen g (p :: ps) = polyLen g p.polyline + totalLen g ps := by
  simp [totalLen]

/-! ## Characterization of `longer_than` -/

lemma longerPoly_eq (g : Geo) (harc : ∀ p q r, 0 ≤ g.arcAngle p q r) :
    ∀ (segs : List Segment) (prev : Vec2) (l : ℝ),
      longerPoly g prev l segs =
        if segs ≠ [] ∧ l < polyLenFrom g prev segs then none
        else some (l - polyLenFrom g prev segs) := by
  intro segs
  induction segs with
  | nil => intro prev l; simp [longerPoly, polyLenFrom]
  | cons s rest ih =>
    intro prev l
    have ha : 0 ≤ segLen g prev s := segLen_nonneg g harc prev s
    have hS : 0 ≤ polyLenFrom g s.point rest := polyLenFrom_nonneg g harc rest s.point
    simp only [longerPoly, polyLenFrom]
    by_cases h1 : l - segLen g prev s < 0
    · rw [if_pos h1, if_pos]
      refine ⟨List.cons_ne_nil _ _, ?_⟩
      linarith
    · rw [if_neg h1, ih s.point (l - segLen g prev s)]
      by_cases h2 : rest = []
      · subst h2
        simp only [polyLenFrom] at *
        rw [if_neg (by simp), if_neg]
        · ring_nf
        · rintro ⟨-, hlt⟩
          linarith
      · by_cases h3 : l - segLen g prev s < polyLenFrom g s.point rest
        · rw [if_pos ⟨h2, h3⟩, if_pos ⟨List.cons_ne_nil _ _, by linarith⟩]
        · rw [if_neg (by tauto), if_neg]
          · congr 1; ring
          · rintro ⟨-, hlt⟩
            exact h3 (by linarith)

lemma longer_than_eq (g : Geo) (harc : ∀ p q r, 0 ≤ g.arcAngle p q r) :
    ∀ (paths : List ExtrusionPath) (l : ℝ),
      longer_than g paths l = decide (l < totalLen g paths) := by
  intro paths
  induction paths with
  | nil => intro l; simp [longer_than, longerPaths, totalLen]
  | cons p ps ih =>
    intro l
    rw [totalLen_cons]
    have hT : 0 ≤ totalLen g ps := totalLen_nonneg g harc ps
    cases hpoly : p.polyline with
    | nil =>
      have : longerPaths g l (p :: ps) = longerPaths g l ps := by
        simp [longerPaths, hpoly]
      simp only [longer_than, this, hpoly]
      have := ih l
      simp only [longer_than] at this
      rw [this]
      simp [polyLen]
    | cons s rest =>
      have hpl : polyLen g p.polyline = polyLenFrom g s.point rest := by
        rw [hpoly]; rfl
      have hstep : longerPaths g l (p :: ps) =
          match longerPoly g s.point l rest with
          | none => none
          | some l2 => longerPaths g l2 ps := by
        simp [longerPaths, hpoly]
      rw [longerPoly_eq g harc] at hstep
      have hplrfl : polyLen g (s :: rest) = polyLenFrom g s.point rest := rfl
      by_cases hc : rest ≠ [] ∧ l < polyLenFrom g s.point rest
      · rw [if_pos hc] at hstep
        simp only [longer_than, hstep]
        have hlt : l < polyLen g (s :: rest) + totalLen g ps := by
          rw [hplrfl]; linarith [hc.2]
        rw [decide_eq_true hlt]
      · rw [if_neg hc] at hstep
        simp only [longer_than, hstep]
        have hrec := ih (l - polyLenFrom g s.point rest)
        simp only [longer_than] at hrec
        rw [hrec, hplrfl, decide_eq_decide]
        constructor <;> intro h <;> linarith

/-- **C8.** `longer_than(paths, length)` returns true if and only if the total path
length (linear segments by Euclidean length, arc segments by `|radius| * angle`)
strictly exceeds `length`; in particular it returns false at exact equality. -/
theorem c8_longer_than_iff_total_length_exceeds (g : Geo)
    (harc : ∀ p q r, 0 ≤ g.arcAngle p q r) (paths : List ExtrusionPath) (length : ℝ) :
    longer_than g paths length = true ↔ totalLen g paths > length := by
  rw [longer_than_eq g harc]
  simp [gt_iff_lt]

/-- Concrete geometry instance used by the evaluation theorems: all external angle
functions return `0`, so every arc segment has length zero. -/
def gC : Geo := ⟨fun _ _ _ => 0, fun _ _ _ _ => (0, 0), fun _ _ => 0⟩

lemma gC_arc_nonneg : ∀ p q r, 0 ≤ gC.arcAngle p q r := fun _ _ _ => le_refl 0

/-- A concrete linear two-vertex extrusion path from `(0,0)` to `(3,4)` (length 5). -/
def pathA : ExtrusionPath := ⟨[⟨(0, 0), 0, false⟩, ⟨(3, 4), 0, false⟩], false⟩

/-- Witness for C8 at a concrete instance. -/
theorem c8_witness :
    (∀ p q r, 0 ≤ gC.arcAngle p q r) ∧
      (longer_than gC [pathA] 4 = true ↔ totalLen gC [pathA] > 4) :=
  ⟨gC_arc_nonneg, c8_longer_than_iff_total_length_exceeds gC gC_arc_nonneg [pathA] 4⟩

/-! ## Characterization of the samplers -/

lemma sqnorm_eq_vnorm_sq (v : Vec2) : sqnorm v = vnorm v ^ 2 := by
  rw [vnorm, Real.sq_sqrt (sqnorm_nonneg v)]

lemma samplePoly_inl (g : Geo) (harc : ∀ p q r, 0 ≤ g.arcAngle p q r) :
    ∀ (segs : List Segment) (prev : Vec2) (d : ℝ), 0 ≤ d →
      polyLenFrom g prev segs ≤ d →
      samplePoly g prev d segs = Sum.inl (d - polyLenFrom g prev segs) := by
  intro segs
  induction segs with
  | nil => intro prev d _ _; simp [samplePoly, polyLenFrom]
  | cons s rest ih =>
    intro prev d hd hle
    have hS : 0 ≤ polyLenFrom g s.point rest := polyLenFrom_nonneg g harc rest s.point
    have ha : 0 ≤ segLen g prev s := segLen_nonneg g harc prev s
    simp only [polyLenFrom] at hle ⊢
    by_cases hr : s.radius = 0
    · have hseg : segLen g prev s = vnorm (s.point - prev) := by simp [segLen, hr]
      have hv : vnorm (s.point - prev) ≤ d := by linarith [hseg ▸ hle]
      have hlsqr : ¬ sqnorm (s.point - prev) > d ^ 2 := by
        rw [sqnorm_eq_vnorm_sq]
        exact not_lt.2 (pow_le_pow_left₀ (vnorm_nonneg _) hv 2)
      have hd2 : ¬ d - Real.sqrt (sqnorm (s.point - prev)) < 0 := by
        rw [show Real.sqrt (sqnorm (s.point - prev)) = vnorm (s.point - prev) from rfl]
        linarith
      rw [show samplePoly g prev d (s :: rest) =
            samplePoly g s.point (d - Real.sqrt (sqnorm (s.point - prev))) rest by
          simp [samplePoly, hr, hlsqr, hd2]]
      rw [ih s.point _ (by rw [show Real.sqrt (sqnorm (s.point - prev)) =
            vnorm (s.point - prev) from rfl]; linarith)
          (by rw [show Real.sqrt (sqnorm (s.point - prev)) = vnorm (s.point - prev) from rfl]
              linarith [hseg ▸ hle])]
      rw [show Real.sqrt (sqnorm (s.point - prev)) = vnorm (s.point - prev) from rfl, hseg]
      congr 1
      ring
    · have hseg : segLen g prev s = |s.radius| * g.arcAngle prev s.point s.radius := by
        simp [segLen, hr]
      have hlen : ¬ |s.radius| * g.arcAngle prev s.point s.radius > d := by
        have := hseg ▸ hle
        linarith
      have hd2 : ¬ d - |s.radius| * g.arcAngle prev s.point s.radius < 0 := by
        have := hseg ▸ hle
        linarith
      rw [show samplePoly g prev d (s :: rest) =
            samplePoly g s.point (d - |s.radius| * g.arcAngle prev s.point s.radius) rest by
          simp [samplePoly, hr, hlen, hd2]]
      rw [ih s.point _ (by linarith [hseg ▸ hle]) (by linarith [hseg ▸ hle])]
      rw [hseg]
      congr 1
      ring

lemma samplePoly_inr (g : Geo) (_harc : ∀ p q r, 0 ≤ g.arcAngle p q r) :
    ∀ (segs : List Segment) (prev : Vec2) (d : ℝ), 0 ≤ d →
      d < polyLenFrom g prev segs →
      ∃ pt, samplePoly g prev d segs = Sum.inr pt := by
  intro segs
  induction segs with
  | nil =>
    intro prev d hd hlt
    simp only [polyLenFrom] at hlt
    exact absurd hlt (by linarith)
  | cons s rest ih =>
    intro prev d hd hlt
    simp only [polyLenFrom] at hlt
    by_cases hr : s.radius = 0
    · by_cases h1 : sqnorm (s.point - prev) > d ^ 2
      · have hbr : samplePoly g prev d (s :: rest) =
            Sum.inr (prev + (d / Real.sqrt (sqnorm (s.point - prev))) • (s.point - prev)) := by
          simp [samplePoly, hr, h1]
        exact ⟨_, hbr⟩
      · by_cases h2 : d - Real.sqrt (sqnorm (s.point - prev)) < 0
        · have hbr : samplePoly g prev d (s :: rest) = Sum.inr s.point := by
            simp [samplePoly, hr, h1, h2]
          exact ⟨_, hbr⟩
        · have hseg : segLen g prev s = vnorm (s.point - prev) := by simp [segLen, hr]
          obtain ⟨pt, hpt⟩ := ih s.point (d - Real.sqrt (sqnorm (s.point - prev)))
            (not_lt.1 h2)
            (by rw [show Real.sqrt (sqnorm (s.point - prev)) = vnorm (s.point - prev) from rfl]
                rw [hseg] at hlt
                linarith)
          exact ⟨pt, by simp [samplePoly, hr, h1, h2, hpt]⟩
    · by_cases h1 : |s.radius| * g.arcAngle prev s.point s.radius > d
      · have hbr : samplePoly g prev d (s :: rest) =
            Sum.inr (rotAbout
              (-(g.arcAngle prev s.point s.radius *
                  (d / (|s.radius| * g.arcAngle prev s.point s.radius))))
              (g.arcCenter prev s.point s.radius s.ccw) prev) := by
          simp [samplePoly, hr, h1]
        exact ⟨_, hbr⟩
      · by_cases h2 : d - |s.radius| * g.arcAngle prev s.point s.radius < 0
        · have hbr : samplePoly g prev d (s :: rest) = Sum.inr s.point := by
            simp [samplePoly, hr, h1, h2]
          exact ⟨_, hbr⟩
        · have hseg : segLen g prev s = |s.radius| * g.arcAngle prev s.point s.radius := by
            simp [segLen, hr]
          obtain ⟨pt, hpt⟩ := ih s.point (d - |s.radius| * g.arcAngle prev s.point s.radius)
            (not_lt.1 h2)
            (by rw [hseg] at hlt; linarith)
          exact ⟨pt, by simp [samplePoly, hr, h1, h2, hpt]⟩

lemma sampleWalk_isSome (g : Geo) (harc : ∀ p q r, 0 ≤ g.arcAngle p q r) :
    ∀ (paths : List ExtrusionPath) (d : ℝ), 0 ≤ d →
      ((sampleWalk g d paths).isSome = true ↔ d < totalLen g paths) := by
  intro paths
  induction paths with
  | nil =>
    intro d hd
    simp only [sampleWalk, totalLen, List.map_nil, List.sum_nil, Option.isSome_none]
    constructor
    · intro h; exact absurd h (by simp)
    · intro h; linarith
  | cons p ps ih =>
    intro d hd
    rw [totalLen_cons]
    have hT : 0 ≤ totalLen g ps := totalLen_nonneg g harc ps
    cases hpoly : p.polyline with
    | nil =>
      have : sampleWalk g d (p :: ps) = sampleWalk g d ps := by simp [sampleWalk, hpoly]
      rw [this, ih d hd]
      simp [polyLen]
    | cons s rest =>
      have hpl : polyLen g p.polyline = polyLenFrom g s.point rest := by rw [hpoly]; rfl
      have hstep : sampleWalk g d (p :: ps) =
          match samplePoly g s.point d rest with
          | Sum.inr pt => some pt
          | Sum.inl d2 => sampleWalk g d2 ps := by
        simp [sampleWalk, hpoly]
      have hpr : polyLen g (s :: rest) = polyLenFrom g s.point rest := rfl
      by_cases hc : d < polyLenFrom g s.point rest
      · obtain ⟨pt, hpt⟩ := samplePoly_inr g harc rest s.point d hd hc
        rw [hstep, hpt]
        simp only [Option.isSome_some, true_iff]
        rw [hpr]
        linarith
      · rw [hstep, samplePoly_inl g harc rest s.point d hd (not_lt.1 hc)]
        have hd2 : 0 ≤ d - polyLenFrom g s.point rest := by linarith [not_lt.1 hc]
        rw [ih _ hd2, hpr]
        constructor <;> intro h <;> linarith

/-- **C10.** `sample_path_point_at_distance_from_start` returns a point if and only
if the distance is non-negative and strictly less than the total path length; a
negative distance and a distance exactly equal to the total length both return no
value. -/
theorem c10_sample_from_start_some_iff (g : Geo) (harc : ∀ p q r, 0 ≤ g.arcAngle p q r)
    (paths : List ExtrusionPath) (d : ℝ) :
    (sample_path_point_at_distance_from_start g paths d).isSome = true ↔
      (0 ≤ d ∧ d < totalLen g paths) := by
  unfold sample_path_point_at_distance_from_start
  by_cases hd : 0 ≤ d
  · rw [if_pos hd, sampleWalk_isSome g harc paths d hd]
    exact ⟨fun h => ⟨hd, h⟩, fun h => h.2⟩
  · rw [if_neg hd]
    simp only [Option.isSome_none, Bool.false_eq_true, false_iff]
    intro h
    exact hd h.1

/-- Witness for C10 at a concrete instance. -/
theorem c10_witness :
    (∀ p q r, 0 ≤ gC.arcAngle p q r) ∧
      ((sample_path_point_at_distance_from_start gC [pathA] 4).isSome = true ↔
        (0 ≤ (4 : ℝ) ∧ (4 : ℝ) < totalLen gC [pathA])) :=
  ⟨gC_arc_nonneg, c10_sample_from_start_some_iff gC gC_arc_nonneg [pathA] 4⟩

/-! ## Concrete sampling evaluations (C9 and C5) -/

lemma sqrt_hundred : Real.sqrt 100 = 10 := by
  rw [show (100 : ℝ) = 10 ^ 2 by norm_num, Real.sqrt_sq (by norm_num : (0 : ℝ) ≤ 10)]

lemma vnorm_smul (c : ℝ) (v : Vec2) : vnorm (c • v) = |c| * vnorm v := by
  unfold vnorm sqnorm
  rw [show (c • v).1 = c * v.1 from rfl, show (c • v).2 = c * v.2 from rfl]
  rw [mul_pow, mul_pow, ← mul_add, Real.sqrt_mul (sq_nonneg c), Real.sqrt_sq_eq_abs]

/-- **C9.** On a single straight segment of length 10, sampling from the start at
distance 4 returns the point 4 units from the start along the segment, and sampling
at distance 15 (exceeding the total length) returns no value. -/
theorem c9_single_straight_segment (g : Geo) (p0 p1 : Vec2) (b : Bool)
    (h10 : vnorm (p1 - p0) = 10) :
    sample_path_point_at_distance_from_start g
        [⟨[⟨p0, 0, false⟩, ⟨p1, 0, false⟩], b⟩] 4 =
        some (p0 + ((4 : ℝ) / 10) • (p1 - p0)) ∧
      vnorm ((p0 + ((4 : ℝ) / 10) • (p1 - p0)) - p0) = 4 ∧
      sample_path_point_at_distance_from_start g
        [⟨[⟨p0, 0, false⟩, ⟨p1, 0, false⟩], b⟩] 15 = none := by
  have hsq : sqnorm (p1 - p0) = 100 := by
    rw [sqnorm_eq_vnorm_sq, h10]; norm_num
  refine ⟨?_, ?_, ?_⟩
  · norm_num [sample_path_point_at_distance_from_start, sampleWalk, samplePoly, hsq,
      sqrt_hundred]
  · rw [add_sub_cancel_left, vnorm_smul, h10,
      abs_of_nonneg (by norm_num : (0 : ℝ) ≤ 4 / 10)]
    norm_num
  · norm_num [sample_path_point_at_distance_from_start, sampleWalk, samplePoly, hsq,
      sqrt_hundred]

lemma vnorm_ten_zero : vnorm ((((10 : ℝ), (0 : ℝ)) : Vec2) - (((0 : ℝ), (0 : ℝ)) : Vec2)) = 10 := by
  have : ((((10 : ℝ), (0 : ℝ)) : Vec2) - (((0 : ℝ), (0 : ℝ)) : Vec2)) = ((10 : ℝ), (0 : ℝ)) := by
    norm_num [Prod.ext_iff]
  rw [this]
  unfold vnorm sqnorm
  norm_num [sqrt_hundred]

/-- Witness for C9 at the segment from the origin to `(10, 0)`. -/
theorem c9_witness :
    vnorm ((((10 : ℝ), (0 : ℝ)) : Vec2) - (((0 : ℝ), (0 : ℝ)) : Vec2)) = 10 ∧
      sample_path_point_at_distance_from_start gC
        [⟨[⟨((0 : ℝ), (0 : ℝ)), 0, false⟩, ⟨((10 : ℝ), (0 : ℝ)), 0, false⟩], false⟩] 4 =
        some ((((0 : ℝ), (0 : ℝ)) : Vec2) +
          ((4 : ℝ) / 10) • ((((10 : ℝ), (0 : ℝ)) : Vec2) - (((0 : ℝ), (0 : ℝ)) : Vec2))) :=
  ⟨vnorm_ten_zero,
    (c9_single_straight_segment gC ((0 : ℝ), (0 : ℝ)) ((10 : ℝ), (0 : ℝ)) false vnorm_ten_zero).1⟩

/-- A concrete two-segment linear path `(0,0) → (10,0) → (10,10)` of total length 20. -/
def pathB : ExtrusionPath :=
  ⟨[⟨((0 : ℝ), (0 : ℝ)), 0, false⟩, ⟨((10 : ℝ), (0 : ℝ)), 0, false⟩,
    ⟨((10 : ℝ), (10 : ℝ)), 0, false⟩], false⟩

/-- **C5 (code bug).** `sample_path_point_at_distance_from_end` is a verbatim copy of
`sample_path_point_at_distance_from_start` and walks the path from its *start*: on the
path `(0,0) → (10,0) → (10,10)` at distance 4 it returns `(4, 0)` (4 units from the
start), while sampling 4 units back from the end — as the spec describes the function —
yields `(10, 6)`. -/
theorem c5_from_end_is_from_start :
    (∀ (g : Geo) (paths : List ExtrusionPath) (d : ℝ),
        sample_path_point_at_distance_from_end g paths d =
          sample_path_point_at_distance_from_start g paths d) ∧
      sample_path_point_at_distance_from_end gC [pathB] 4 =
        some (((4 : ℝ), (0 : ℝ)) : Vec2) ∧
      specSampleFromEnd gC [pathB] 4 = some (((10 : ℝ), (6 : ℝ)) : Vec2) ∧
      ((((4 : ℝ), (0 : ℝ)) : Vec2) ≠ (((10 : ℝ), (6 : ℝ)) : Vec2)) := by
  refine ⟨fun _ _ _ => rfl, ?_, ?_, ?_⟩
  · norm_num [sample_path_point_at_distance_from_end, sampleWalk, samplePoly, pathB,
      sqnorm, sqrt_hundred, Prod.ext_iff]
  · norm_num [specSampleFromEnd, sample_path_point_at_distance_from_start, sampleWalk,
      samplePoly, pathB, revSegs, sqnorm, sqrt_hundred, Prod.ext_iff]
  · norm_num [Prod.ext_iff]

/-! ## The accumulated path of `set_path` (C3 and C6) -/

/-- The last vertex point of a polyline tail walked from `prev`. -/
def lastVert (prev : Vec2) : List Segment → Vec2
  | [] => prev
  | s :: rest => lastVert s.point rest

lemma polyLenFrom_append (g : Geo) :
    ∀ (xs ys : List Segment) (prev : Vec2),
      polyLenFrom g prev (xs ++ ys) =
        polyLenFrom g prev xs + polyLenFrom g (lastVert prev xs) ys := by
  intro xs
  induction xs with
  | nil => intro ys prev; simp [polyLenFrom, lastVert]
  | cons s rest ih =>
    intro ys prev
    have hc : (s :: rest) ++ ys = s :: (rest ++ ys) := rfl
    rw [hc]
    simp only [polyLenFrom, lastVert]
    rw [ih ys s.point]
    ring

lemma getLastD_point_eq_lastVert :
    ∀ (xs : List Segment) (a : Segment),
      ((a :: xs).getLastD default).point = lastVert a.point xs := by
  intro xs
  induction xs with
  | nil => intro a; simp [lastVert]
  | cons b r ih =>
    intro a
    rw [List.getLastD_cons, List.getLastD_cons]
    have h2 := ih b
    rw [List.getLastD_cons] at h2
    rw [h2]
    rfl

lemma polyLen_append_tail (g : Geo) (a : Segment) (r : List Segment) (s0 : Segment)
    (tail : List Segment) (hadj : (((a :: r).getLastD default)).point = s0.point) :
    polyLen g ((a :: r) ++ tail) = polyLen g (a :: r) + polyLenFrom g s0.point tail := by
  show polyLenFrom g a.point (r ++ tail) = polyLenFrom g a.point r + polyLenFrom g s0.point tail
  rw [polyLenFrom_append]
  congr 2
  rw [← getLastD_point_eq_lastVert r a, hadj]

/-- The largest polyline length among the input paths. -/
def maxPolyLen (g : Geo) (paths : List ExtrusionPath) : ℝ :=
  (paths.map (fun p => polyLen g p.polyline)).foldr max 0

lemma maxPolyLen_nonneg (g : Geo) (paths : List ExtrusionPath) : 0 ≤ maxPolyLen g paths := by
  unfold maxPolyLen
  induction paths with
  | nil => simp
  | cons p ps ih => exact le_trans ih (by simp [le_max_iff])

lemma le_maxPolyLen (g : Geo) {p : ExtrusionPath} :
    ∀ {paths : List ExtrusionPath}, p ∈ paths → polyLen g p.polyline ≤ maxPolyLen g paths := by
  intro paths
  induction paths with
  | nil => intro h; cases h
  | cons q qs ih =>
    intro h
    rcases List.mem_cons.1 h with rfl | h2
    · exact le_max_left _ _
    · exact le_trans (ih h2) (le_max_right _ _)

lemma maxPolyLen_mono (g : Geo) {l L : List ExtrusionPath} (h : ∀ p ∈ l, p ∈ L) :
    maxPolyLen g l ≤ maxPolyLen g L := by
  induction l with
  | nil => exact maxPolyLen_nonneg g L
  | cons p ps ih =>
    refine max_le (le_maxPolyLen g (h p (List.mem_cons_self _ _))) ?_
    exact ih (fun q hq => h q (List.mem_cons_of_mem _ hq))

lemma setPathGo_len_le (g : Geo) (budget : ℝ) (rev : Bool) :
    ∀ (rest : List ExtrusionPath) (st : AccState),
      (setPathGo g budget rev st rest).len ≤ max st.len (budget + maxPolyLen g rest) := by
  intro rest
  induction rest with
  | nil => intro st; simp [setPathGo]
  | cons p rest ih =>
    intro st
    simp only [setPathGo]
    split_ifs with h1 h2 h3
    · exact le_max_left _ _
    · exact le_max_left _ _
    · refine le_trans (ih _) (max_le ?_ ?_)
      · have hmax : polyLen g p.polyline ≤ maxPolyLen g (p :: rest) :=
          le_maxPolyLen g (List.mem_cons_self _ _)
        refine le_trans ?_ (le_max_right _ _)
        show st.len + polyLen g p.polyline ≤ budget + maxPolyLen g (p :: rest)
        exact add_le_add (le_of_lt h1) hmax
      · refine le_trans ?_ (le_max_right _ _)
        refine add_le_add_left (maxPolyLen_mono g ?_) budget
        exact fun q hq => List.mem_cons_of_mem _ hq
    · exact le_max_left _ _

lemma setPathGo_segs_len_forward (g : Geo) (budget : ℝ) :
    ∀ (rest : List ExtrusionPath) (st : AccState), st.segs ≠ [] →
      polyLen g st.segs = st.len → (∀ p ∈ rest, p.polyline ≠ []) →
      (setPathGo g budget false st rest).segs ≠ [] ∧
        polyLen g (setPathGo g budget false st rest).segs =
          (setPathGo g budget false st rest).len := by
  intro rest
  induction rest with
  | nil => intro st hne hlen _; exact ⟨hne, hlen⟩
  | cons p rest ih =>
    intro st hne hlen hpoly
    simp only [setPathGo]
    split_ifs with h1 h2 h3
    · exact ⟨hne, hlen⟩
    · exact ⟨hne, hlen⟩
    · obtain ⟨a, r, hst⟩ := List.exists_cons_of_ne_nil hne
      obtain ⟨s0, tail, hp⟩ := List.exists_cons_of_ne_nil (hpoly p (List.mem_cons_self _ _))
      have hadj : (st.segs.getLastD default).point = s0.point := by
        rw [not_ne_iff.1 h3]
        simp [adjoinPt, ExtrusionPath.firstPt, hp]
      have hsel : appendSel false p = tail := by simp [appendSel, hp]
      refine ih ⟨st.segs ++ appendSel false p, st.len + polyLen g p.polyline,
          st.appended ++ [p]⟩ ?_ ?_ ?_
      · show st.segs ++ appendSel false p ≠ []
        rw [hsel, hst]
        simp
      · show polyLen g (st.segs ++ appendSel false p) = st.len + polyLen g p.polyline
        rw [hsel, hst]
        rw [polyLen_append_tail g a r s0 tail (by rw [← hst]; exact hadj)]
        rw [← hst, hlen]
        congr 1
        rw [hp]
        rfl
      · exact fun q hq => hpoly q (List.mem_cons_of_mem _ hq)
    · exact ⟨hne, hlen⟩

/-- **C3 (amended).** The accumulated path length can exceed the configured budget
only through the unconditionally taken initial polyline or through the final appended
polyline: for forward accumulation the cached path's total length is at most
`max(initial polyline length, budget + longest input polyline length)`. -/
theorem c3_amended_length_bound (g : Geo) (paths : List ExtrusionPath) (w : Wipe)
    (hne : paths ≠ []) (hen : w.enabled = true) (hpoly : ∀ p ∈ paths, p.polyline ≠ []) :
    polyLen g (Wipe.set_path g paths false w).path ≤
      max (polyLen g (paths.headD default).polyline) (w.wipeLenMax + maxPolyLen g paths) := by
  have hsp : (Wipe.set_path g paths false w).path = (setPathAcc g paths false w).segs := by
    unfold Wipe.set_path
    rw [if_pos ⟨hen, hne⟩]
  rw [hsp]
  obtain ⟨q, qs, rfl⟩ := List.exists_cons_of_ne_nil hne
  have hinit : setPathInitSegs (q :: qs) false = q.polyline := rfl
  unfold setPathAcc
  have h2 := setPathGo_segs_len_forward g w.wipeLenMax (setPathRest (q :: qs) false)
    ⟨setPathInitSegs (q :: qs) false, polyLen g (setPathInitSegs (q :: qs) false), []⟩
    (by rw [hinit]; exact hpoly q (List.mem_cons_self _ _))
    rfl
    (by
      intro p hp
      refine hpoly p (List.mem_cons_of_mem _ ?_)
      simpa [setPathRest] using hp)
  rw [h2.2]
  refine le_trans (setPathGo_len_le g w.wipeLenMax false _ _) (max_le ?_ ?_)
  · exact le_max_left _ _ |>.trans' (le_of_eq (by rw [hinit]; rfl))
  · refine le_trans ?_ (le_max_right _ _)
    refine add_le_add_left (maxPolyLen_mono g ?_) w.wipeLenMax
    intro p hp
    refine List.mem_cons_of_mem _ ?_
    simpa [setPathRest] using hp

/-- An enabled wipe state with budget 1 and an empty cache. -/
def wEn : Wipe := ⟨true, 1, [], (((0 : ℝ), (0 : ℝ)) : Vec2)⟩

/-- A single linear path of length 100, from the origin to `(100, 0)`. -/
def pathL : ExtrusionPath :=
  ⟨[⟨((0 : ℝ), (0 : ℝ)), 0, false⟩, ⟨((100 : ℝ), (0 : ℝ)), 0, false⟩], false⟩

lemma sqrt_tenthousand : Real.sqrt 10000 = 100 := by
  rw [show (10000 : ℝ) = 100 ^ 2 by norm_num, Real.sqrt_sq (by norm_num : (0 : ℝ) ≤ 100)]

/-- **C3 (counterexample).** The initial polyline is taken unconditionally: with an
enabled budget of 1 and a single input path of length 100, the cached path after
`set_path` is 100 long, far exceeding the budget. -/
theorem c3_counterexample :
    ¬ polyLen gC (Wipe.set_path gC [pathL] false wEn).path ≤ wEn.wipeLenMax := by
  have hpath : (Wipe.set_path gC [pathL] false wEn).path = pathL.polyline := by
    simp [Wipe.set_path, setPathAcc, setPathGo, setPathRest, setPathInitSegs, wEn]
  rw [hpath]
  have hlen : polyLen gC pathL.polyline = 100 := by
    norm_num [pathL, polyLen, polyLenFrom, segLen, vnorm, sqnorm, sqrt_tenthousand,
      Prod.ext_iff]
  rw [hlen]
  norm_num [wEn]

/-- Witness for the amended C3 at a concrete instance. -/
theorem c3_witness :
    ([pathL] ≠ ([] : List ExtrusionPath)) ∧ wEn.enabled = true ∧
      polyLen gC (Wipe.set_path gC [pathL] false wEn).path ≤
        max (polyLen gC ([pathL].headD default).polyline)
          (wEn.wipeLenMax + maxPolyLen gC [pathL]) :=
  ⟨by simp, rfl,
    c3_amended_length_bound gC [pathL] wEn (by simp) rfl
      (by
        intro p hp
        rw [List.mem_singleton.1 hp]
        simp [pathL])⟩

lemma mem_take_of_getElem? {α : Type} {b : α} :
    ∀ (l : List α) (j k : ℕ), j < k → l[j]? = some b → b ∈ l.take k := by
  intro l
  induction l with
  | nil => intro j k _ h; simp at h
  | cons x xs ih =>
    intro j k hjk h
    obtain ⟨k2, rfl⟩ := Nat.exists_eq_succ_of_ne_zero
      (Nat.pos_iff_ne_zero.1 (lt_of_le_of_lt (Nat.zero_le j) hjk))
    cases j with
    | zero =>
      rw [List.getElem?_cons_zero] at h
      rw [List.take_succ_cons]
      exact (Option.some_inj.1 h) ▸ List.mem_cons_self _ _
    | succ j2 =>
      rw [List.getElem?_cons_succ] at h
      rw [List.take_succ_cons]
      exact List.mem_cons_of_mem _ (ih j2 k2 (Nat.succ_lt_succ_iff.1 hjk) h)

lemma setPathGo_appended (g : Geo) (budget : ℝ) (rev : Bool) :
    ∀ (rest : List ExtrusionPath) (st : AccState),
      ∃ k, (setPathGo g budget rev st rest).appended = st.appended ++ rest.take k ∧
        (setPathGo g budget rev st rest).segs =
          st.segs ++ ((rest.take k).map (appendSel rev)).flatten ∧
        (∀ p ∈ rest.take k, p.isBridge = false) ∧
        (∀ b, rest[k]? = some b →
          ¬ (setPathGo g budget rev st rest).len < budget ∨ b.isBridge = true ∨
            ((setPathGo g budget rev st rest).segs.getLastD default).point ≠
              adjoinPt rev b) := by
  intro rest
  induction rest with
  | nil =>
    intro st
    exact ⟨0, by simp [setPathGo], by simp [setPathGo], by simp, by simp⟩
  | cons p rest ih =>
    intro st
    simp only [setPathGo]
    split_ifs with h1 h2 h3
    · -- bridge: stop with k = 0
      refine ⟨0, by simp, by simp, by simp, ?_⟩
      intro b hb
      rw [show b = p by simpa using hb.symm]
      exact Or.inr (Or.inl h2)
    · -- endpoint mismatch: stop with k = 0
      refine ⟨0, by simp, by simp, by simp, ?_⟩
      intro b hb
      rw [show b = p by simpa using hb.symm]
      exact Or.inr (Or.inr h3)
    · -- append and continue
      obtain ⟨k2, ha, hs, hbr, hstop⟩ :=
        ih ⟨st.segs ++ appendSel rev p, st.len + polyLen g p.polyline, st.appended ++ [p]⟩
      refine ⟨k2 + 1, ?_, ?_, ?_, ?_⟩
      · rw [ha, List.take_succ_cons]
        simp
      · rw [hs, List.take_succ_cons]
        simp
      · intro q hq
        rw [List.take_succ_cons] at hq
        rcases List.mem_cons.1 hq with rfl | hq2
        · exact Bool.not_eq_true _ ▸ h2
        · exact hbr q hq2
      · intro b hb
        rw [List.getElem?_cons_succ] at hb
        exact hstop b hb
    · -- budget reached: stop with k = 0
      refine ⟨0, by simp, by simp, by simp, ?_⟩
      intro b _
      exact Or.inl h1

/-- **C6 (amended).** Beyond the unconditionally taken initial polyline, the cached
path consists exactly of the polylines of an all-non-bridge prefix of the walked
input paths, so no appended segment comes from a bridge path, and accumulation stops
no later than the first bridge among the walked paths. -/
theorem c6_amended_no_bridge_beyond_initial (g : Geo) (paths : List ExtrusionPath)
    (rev : Bool) (w : Wipe) (hen : w.enabled = true) (hne : paths ≠ []) :
    ∃ k,
      (Wipe.set_path g paths rev w).path =
        setPathInitSegs paths rev ++
          (((setPathRest paths rev).take k).map (appendSel rev)).flatten ∧
        (setPathAcc g paths rev w).appended = (setPathRest paths rev).take k ∧
        (∀ p ∈ (setPathRest paths rev).take k, p.isBridge = false) ∧
        (∀ j b, (setPathRest paths rev)[j]? = some b → b.isBridge = true → k ≤ j) := by
  have hsp : (Wipe.set_path g paths rev w).path = (setPathAcc g paths rev w).segs := by
    unfold Wipe.set_path
    rw [if_pos ⟨hen, hne⟩]
  obtain ⟨k, ha, hs, hbr, _⟩ := setPathGo_appended g w.wipeLenMax rev (setPathRest paths rev)
    ⟨setPathInitSegs paths rev, polyLen g (setPathInitSegs paths rev), []⟩
  refine ⟨k, ?_, ?_, hbr, ?_⟩
  · rw [hsp]
    exact hs
  · exact ha.trans (by simp)
  · intro j b hj hb
    by_contra hk
    refine absurd (hbr b ?_) (by simp [hb])
    exact mem_take_of_getElem? _ j k (lt_of_not_le hk) hj

/-- A single two-vertex bridge path. -/
def pathBr : ExtrusionPath :=
  ⟨[⟨((0 : ℝ), (0 : ℝ)), 0, false⟩, ⟨((1 : ℝ), (0 : ℝ)), 0, false⟩], true⟩

/-- **C6 (counterexample).** The first path is taken without any bridge check: an
enabled `set_path` on a single bridge path caches that bridge path's polyline, so
the cached path does contain segments taken from a bridge-role path. -/
theorem c6_counterexample :
    (Wipe.set_path gC [pathBr] false wEn).path = pathBr.polyline ∧
      pathBr.isBridge = true ∧ pathBr.polyline ≠ [] := by
  refine ⟨?_, rfl, by simp [pathBr]⟩
  simp [Wipe.set_path, setPathAcc, setPathGo, setPathRest, setPathInitSegs, wEn]

/-! ## The wipe budget of `init` (C4) -/

lemma foldr_max_shift (c : ℝ) : ∀ (L : List ℝ) (a : ℝ),
    L.foldr max (max a c) = max c (L.foldr max a) := by
  intro L
  induction L with
  | nil => intro a; exact max_comm a c
  | cons x L ih =>
    intro a
    simp only [List.foldr_cons]
    rw [ih a, max_left_comm]

lemma init_foldl_eq (xyToE : ℕ → ℝ) (wipeEnabled : ℕ → Bool)
    (retractLen retractLenToolchange : ℕ → ℝ) (mm : Prop) [Decidable mm] :
    ∀ (l : List ℕ) (acc : ℝ),
      l.foldl (fun acc id =>
        if wipeEnabled id then
          let acc1 := max acc (retractLen id / xyToE id)
          if mm then max acc1 (retractLenToolchange id / xyToE id) else acc1
        else acc) acc =
      ((l.filter (fun id => wipeEnabled id)).map (fun id =>
        if mm then
          max (retractLen id / xyToE id) (retractLenToolchange id / xyToE id)
        else retractLen id / xyToE id)).foldr max acc := by
  intro l
  induction l with
  | nil => intro acc; simp
  | cons id l ih =>
    intro acc
    by_cases he : wipeEnabled id
    · rw [List.foldl_cons, List.filter_cons_of_pos (by simp [he]), List.map_cons,
        List.foldr_cons]
      by_cases hm : mm
      · have hstep : (if wipeEnabled id then
            let acc1 := max acc (retractLen id / xyToE id)
            if mm then max acc1 (retractLenToolchange id / xyToE id) else acc1
          else acc) =
            max acc (max (retractLen id / xyToE id) (retractLenToolchange id / xyToE id)) := by
          rw [if_pos he]
          show (if mm then max (max acc (retractLen id / xyToE id))
              (retractLenToolchange id / xyToE id)
            else max acc (retractLen id / xyToE id)) = _
          rw [if_pos hm, max_assoc]
        rw [hstep, if_pos hm, ih, ← foldr_max_shift, max_comm acc]
      · have hstep : (if wipeEnabled id then
            let acc1 := max acc (retractLen id / xyToE id)
            if mm then max acc1 (retractLenToolchange id / xyToE id) else acc1
          else acc) = max acc (retractLen id / xyToE id) := by
          rw [if_pos he]
          show (if mm then max (max acc (retractLen id / xyToE id))
              (retractLenToolchange id / xyToE id)
            else max acc (retractLen id / xyToE id)) = _
          rw [if_neg hm]
        rw [hstep, if_neg hm, ih, ← foldr_max_shift, max_comm acc]
    · rw [List.foldl_cons, List.filter_cons_of_neg (by simp [he])]
      have hstep : (if wipeEnabled id then
          let acc1 := max acc (retractLen id / xyToE id)
          if mm then max acc1 (retractLenToolchange id / xyToE id) else acc1
        else acc) = acc := if_neg he
      rw [hstep, ih]

lemma wipe_output_empty_of_path_empty (g : Geo) (G : GenParams) (tc : Bool) (w : Wipe)
    (hp : w.path = []) :
    (Wipe.wipe g G tc w).1 = [] ∧ (Wipe.wipe g G tc w).2.path = [] := by
  unfold Wipe.wipe
  by_cases ht : G.toolIsExtruder = false
  · rw [if_pos ht]
    exact ⟨rfl, hp⟩
  · rw [if_neg ht, if_neg (by simp [hp])]
    exact ⟨rfl, rfl⟩

/-- **C4.** `init` stores as the wipe budget the maximum over the wipe-enabled
extruders of `retract_length / xy_to_e` (also folding in
`retract_length_toolchange / xy_to_e` when more than one extruder is active, and
clamped below by zero as the running maximum starts at zero), it is enabled exactly
when that maximum is non-zero, and a zero maximum leaves the subsystem disabled with
`set_path` and `wipe` no-ops; as a pure function of its inputs, `init` is
deterministic. -/
theorem c4_init_budget_and_disable (xyToE : ℕ → ℝ) (wipeEnabled : ℕ → Bool)
    (retractLen retractLenToolchange : ℕ → ℝ) (extruders : List ℕ) (w : Wipe)
    (g : Geo) (paths : List ExtrusionPath) (rev : Bool) (G : GenParams) (tc : Bool) :
    (Wipe.init xyToE wipeEnabled retractLen retractLenToolchange extruders w).wipeLenMax =
        specWipeBudget xyToE wipeEnabled retractLen retractLenToolchange extruders ∧
      ((Wipe.init xyToE wipeEnabled retractLen retractLenToolchange extruders w).enabled =
          true ↔
        specWipeBudget xyToE wipeEnabled retractLen retractLenToolchange extruders ≠ 0) ∧
      (Wipe.init xyToE wipeEnabled retractLen retractLenToolchange extruders w).path = [] ∧
      (specWipeBudget xyToE wipeEnabled retractLen retractLenToolchange extruders = 0 →
        (Wipe.set_path g paths rev
            (Wipe.init xyToE wipeEnabled retractLen retractLenToolchange extruders w)).path =
            [] ∧
          (Wipe.wipe g G tc
            (Wipe.set_path g paths rev
              (Wipe.init xyToE wipeEnabled retractLen retractLenToolchange
                extruders w))).1 = [] ∧
          (Wipe.wipe g G tc
            (Wipe.init xyToE wipeEnabled retractLen retractLenToolchange
              extruders w)).1 = []) := by
  have key : extruders.foldl (fun acc id =>
      if wipeEnabled id then
        let acc1 := max acc (retractLen id / xyToE id)
        if 1 < extruders.length then max acc1 (retractLenToolchange id / xyToE id) else acc1
      else acc) 0 =
      specWipeBudget xyToE wipeEnabled retractLen retractLenToolchange extruders := by
    rw [init_foldl_eq xyToE wipeEnabled retractLen retractLenToolchange
      (1 < extruders.length) extruders 0]
    rfl
  have init_eq : Wipe.init xyToE wipeEnabled retractLen retractLenToolchange extruders w =
      if specWipeBudget xyToE wipeEnabled retractLen retractLenToolchange extruders = 0 then
        { w with
            path := []
            enabled := false
            wipeLenMax :=
              specWipeBudget xyToE wipeEnabled retractLen retractLenToolchange extruders }
      else
        { w with
            path := []
            enabled := true
            wipeLenMax :=
              specWipeBudget xyToE wipeEnabled retractLen retractLenToolchange extruders } := by
    simp only [Wipe.init]
    rw [key]
  have hfold :
      (Wipe.init xyToE wipeEnabled retractLen retractLenToolchange extruders w).wipeLenMax =
        specWipeBudget xyToE wipeEnabled retractLen retractLenToolchange extruders := by
    rw [init_eq]
    split <;> rfl
  have hen :
      (Wipe.init xyToE wipeEnabled retractLen retractLenToolchange extruders w).enabled =
          true ↔
        specWipeBudget xyToE wipeEnabled retractLen retractLenToolchange extruders ≠ 0 := by
    rw [init_eq]
    by_cases h0 : specWipeBudget xyToE wipeEnabled retractLen retractLenToolchange
        extruders = 0
    · rw [if_pos h0]
      simp [h0]
    · rw [if_neg h0]
      simp [h0]
  have hpath :
      (Wipe.init xyToE wipeEnabled retractLen retractLenToolchange extruders w).path = [] := by
    rw [init_eq]
    split <;> rfl
  refine ⟨hfold, hen, hpath, ?_⟩
  intro h0
  have hdis : (Wipe.init xyToE wipeEnabled retractLen retractLenToolchange
      extruders w).enabled ≠ true := fun hcon => (hen.1 hcon) h0
  have hsp : (Wipe.set_path g paths rev
      (Wipe.init xyToE wipeEnabled retractLen retractLenToolchange extruders w)).path = [] := by
    unfold Wipe.set_path
    rw [if_neg (fun hcon => hdis hcon.1)]
  exact ⟨hsp, (wipe_output_empty_of_path_empty g G tc _ hsp).1,
    (wipe_output_empty_of_path_empty g G tc _ hpath).1⟩

/-! ## Clearing of the cached path by `wipe` (C1) -/

lemma wipe_clears_path (g : Geo) (G : GenParams) (tc : Bool) (w : Wipe)
    (h : G.toolIsExtruder = true) : (Wipe.wipe g G tc w).2.path = [] := by
  unfold Wipe.wipe
  rw [if_neg (by simp [h])]
  simp only []
  split
  · rfl
  · rfl

/-- **C1 (amended).** Whenever the active tool is an extruder, `wipe()` leaves the
cached path empty regardless of which branch ran; consequently, for two consecutive
`wipe()` calls with no intervening `set_path` and an unchanged tool-is-extruder
state, the second call produces empty output. (When the tool is no extruder,
`wipe()` returns early *without* clearing the cached path — see the counterexample.) -/
theorem c1_amended_wipe_clears_path (g1 g2 : Geo) (G1 G2 : GenParams) (w : Wipe)
    (tc1 tc2 : Bool) (hsame : G1.toolIsExtruder = G2.toolIsExtruder) :
    (G1.toolIsExtruder = true → (Wipe.wipe g1 G1 tc1 w).2.path = []) ∧
      (Wipe.wipe g2 G2 tc2 (Wipe.wipe g1 G1 tc1 w).2).1 = [] := by
  refine ⟨fun h => wipe_clears_path g1 G1 tc1 w h, ?_⟩
  by_cases h : G1.toolIsExtruder = true
  · exact (wipe_output_empty_of_path_empty g2 G2 tc2 _ (wipe_clears_path g1 G1 tc1 w h)).1
  · have h2 : G2.toolIsExtruder = false := by
      rw [← hsame]
      exact Bool.not_eq_true _ ▸ h
    unfold Wipe.wipe
    rw [if_pos h2]

/-- A generator state whose active tool is not an extruder; the remaining fields are
arbitrary concrete values. -/
def GFalse : GenParams :=
  ⟨false, false, 1, 1, none, fun x => x, 0, 0, 1, fun v => v, fun x => x, 3, 0,
    fun v => v, (((0 : ℝ), (0 : ℝ)) : Vec2), 0⟩

/-- A generator state whose active tool is an extruder, with identity quantizers,
`xy_to_e = 1`, no lift and `EPSILON = 0`. -/
def GC : GenParams :=
  ⟨true, false, 1, 1, none, fun x => x, 0, 0, 1, fun v => v, fun x => x, 3, 0,
    fun v => v, (((0 : ℝ), (0 : ℝ)) : Vec2), 0⟩

/-- An enabled wipe state with a non-empty two-vertex cached path. -/
def wPath : Wipe :=
  ⟨true, 1, [⟨((0 : ℝ), (0 : ℝ)), 0, false⟩, ⟨((1 : ℝ), (0 : ℝ)), 0, false⟩],
    (((0 : ℝ), (0 : ℝ)) : Vec2)⟩

/-- **C1 (counterexample).** When the active tool is no extruder, `wipe()` returns
early through `Wipe.cpp:96-97` without clearing the cached path: the cached path is
*not* empty after the call. -/
theorem c1_counterexample : (Wipe.wipe gC GFalse false wPath).2.path ≠ [] := by
  simp [Wipe.wipe, GFalse, wPath]

/-- Witness for the amended C1 at a concrete instance. -/
theorem c1_witness :
    GC.toolIsExtruder = GC.toolIsExtruder ∧
      ((GC.toolIsExtruder = true → (Wipe.wipe gC GC false wPath).2.path = []) ∧
        (Wipe.wipe gC GC false (Wipe.wipe gC GC false wPath).2).1 = []) :=
  ⟨rfl, c1_amended_wipe_clears_path gC gC GC GC wPath false false rfl⟩

/-! ## The retraction budget within one `wipe()` invocation (C2) -/

/-- Total extrusion debit of a list of emitted moves. -/
def sumDE (l : List Move) : ℝ := (l.map Move.dE).sum

lemma emitMove_retract (liftPerMm finalZ segLength : ℝ) (arc : Option (Vec2 × Bool))
    (st : WalkState) (pt : Vec2) (dE : ℝ) (done : Bool) :
    (emitMove liftPerMm finalZ segLength arc st pt dE done).1.retract = st.retract - dE := by
  unfold emitMove
  split
  · rfl
  · rfl

lemma emitMove_sumDE (liftPerMm finalZ segLength : ℝ) (arc : Option (Vec2 × Bool))
    (st : WalkState) (pt : Vec2) (dE : ℝ) (done : Bool) :
    sumDE (emitMove liftPerMm finalZ segLength arc st pt dE done).1.gcode =
      sumDE st.gcode + dE := by
  unfold emitMove
  split
  · simp [sumDE]
  · simp [sumDE]

lemma wipeLinear_invariant (G : GenParams) (liftPerMm finalZ : ℝ) (st : WalkState)
    (prevQ p : Vec2) (hqE : ∀ x, 0 ≤ x → 0 ≤ G.quantE x) (heps : 0 ≤ G.eps)
    (hxy : 0 ≤ G.xyToE) (hst : 0 ≤ st.retract) :
    (wipeLinear G liftPerMm finalZ st prevQ p).1.retract ≤ st.retract ∧
      0 ≤ (wipeLinear G liftPerMm finalZ st prevQ p).1.retract ∧
      sumDE (wipeLinear G liftPerMm finalZ st prevQ p).1.gcode =
        sumDE st.gcode + (st.retract - (wipeLinear G liftPerMm finalZ st prevQ p).1.retract) := by
  have hdE0 : 0 ≤ G.quantE (G.xyToE * vnorm (G.quant p - prevQ)) :=
    hqE _ (mul_nonneg hxy (vnorm_nonneg _))
  unfold wipeLinear
  simp only []
  split_ifs with h1 h2 h3 h4 h5 h6
  · exact ⟨le_refl _, hst, by simp⟩
  · exact ⟨le_refl _, hst, by simp⟩
  · exact ⟨le_refl _, hst, by simp⟩
  · exact ⟨le_refl _, hst, by simp⟩
  · rw [emitMove_retract, emitMove_sumDE]
    exact ⟨by linarith, by linarith, by ring⟩
  · rw [emitMove_retract, emitMove_sumDE]
    exact ⟨by linarith, by linarith, by ring⟩
  · rw [emitMove_retract, emitMove_sumDE]
    refine ⟨by linarith, ?_, by ring⟩
    have hle : G.quantE (G.xyToE * vnorm (G.quant p - prevQ)) ≤ st.retract - G.eps :=
      not_lt.1 h3
    linarith

lemma arcFinish_invariant (_g : Geo) (G : GenParams) (liftPerMm finalZ : ℝ) (st : WalkState)
    (prevQ p : Vec2) (ccw : Bool) (center : Vec2) (segLength : ℝ) (pt : Vec2) (dE : ℝ)
    (done : Bool) (hqE : ∀ x, 0 ≤ x → 0 ≤ G.quantE x) (heps : 0 ≤ G.eps)
    (hxy : 0 ≤ G.xyToE) (hst : 0 ≤ st.retract) (hdE : 0 ≤ dE) (hdEle : dE ≤ st.retract) :
    (arcFinish G liftPerMm finalZ st prevQ p ccw center segLength pt dE done).1.retract ≤
        st.retract ∧
      0 ≤ (arcFinish G liftPerMm finalZ st prevQ p ccw center segLength pt dE done).1.retract ∧
      sumDE (arcFinish G liftPerMm finalZ st prevQ p ccw center segLength pt dE done).1.gcode =
        sumDE st.gcode +
          (st.retract -
            (arcFinish G liftPerMm finalZ st prevQ p ccw center segLength pt dE
              done).1.retract) := by
  unfold arcFinish
  simp only []
  split_ifs with h1
  · exact wipeLinear_invariant G liftPerMm finalZ st prevQ p hqE heps hxy hst
  · rw [emitMove_retract, emitMove_sumDE]
    exact ⟨by linarith, by linarith, by ring⟩

lemma wipeArc_invariant (g : Geo) (G : GenParams) (liftPerMm finalZ : ℝ) (st : WalkState)
    (prevQ p : Vec2) (radius : ℝ) (ccw : Bool) (harc : ∀ a b r, 0 ≤ g.arcAngle a b r)
    (hqE : ∀ x, 0 ≤ x → 0 ≤ G.quantE x) (heps : 0 ≤ G.eps) (hxy : 0 ≤ G.xyToE)
    (hst : 0 ≤ st.retract) :
    (wipeArc g G liftPerMm finalZ st prevQ p radius ccw).1.retract ≤ st.retract ∧
      0 ≤ (wipeArc g G liftPerMm finalZ st prevQ p radius ccw).1.retract ∧
      sumDE (wipeArc g G liftPerMm finalZ st prevQ p radius ccw).1.gcode =
        sumDE st.gcode +
          (st.retract - (wipeArc g G liftPerMm finalZ st prevQ p radius ccw).1.retract) := by
  have hdE0 : 0 ≤ G.quantE (G.xyToE * (g.arcAngle prevQ (G.quant p) radius * |radius|)) :=
    hqE _ (mul_nonneg hxy (mul_nonneg (harc _ _ _) (abs_nonneg _)))
  unfold wipeArc
  simp only []
  by_cases h1 : G.quant p = prevQ
  · rw [if_pos h1]
    exact ⟨le_refl _, hst, by ring⟩
  · rw [if_neg h1]
    by_cases h2 : radius = 0
    · rw [if_pos h2]
      exact wipeLinear_invariant G liftPerMm finalZ st prevQ p hqE heps hxy hst
    · rw [if_neg h2]
      by_cases h3 : G.quantE (G.xyToE * (g.arcAngle prevQ (G.quant p) radius * |radius|)) >
          st.retract - G.eps
      · rw [if_pos h3]
        by_cases h4 : G.quantE (G.xyToE * (g.arcAngle prevQ (G.quant p) radius * |radius|)) >
            st.retract + G.eps
        · rw [if_pos h4]
          exact arcFinish_invariant g G liftPerMm finalZ st prevQ p ccw _ _ _ _ _ hqE heps
            hxy hst hst (le_refl _)
        · rw [if_neg h4]
          exact arcFinish_invariant g G liftPerMm finalZ st prevQ p ccw _ _ _ _ _ hqE heps
            hxy hst hst (le_refl _)
      · rw [if_neg h3]
        exact arcFinish_invariant g G liftPerMm finalZ st prevQ p ccw _ _ _ _ _ hqE heps
          hxy hst hdE0 (by linarith [not_lt.1 h3])

lemma walkSegs_invariant (g : Geo) (G : GenParams) (liftPerMm finalZ : ℝ) (offset : Vec2)
    (harc : ∀ a b r, 0 ≤ g.arcAngle a b r) (hqE : ∀ x, 0 ≤ x → 0 ≤ G.quantE x)
    (heps : 0 ≤ G.eps) (hxy : 0 ≤ G.xyToE) :
    ∀ (segs : List Segment) (st : WalkState) (prev : Vec2), 0 ≤ st.retract →
      (walkSegs g G liftPerMm finalZ offset st prev segs).1.retract ≤ st.retract ∧
        0 ≤ (walkSegs g G liftPerMm finalZ offset st prev segs).1.retract ∧
        sumDE (walkSegs g G liftPerMm finalZ offset st prev segs).1.gcode =
          sumDE st.gcode +
            (st.retract - (walkSegs g G liftPerMm finalZ offset st prev segs).1.retract) := by
  intro segs
  induction segs with
  | nil => intro st prev hst; exact ⟨le_refl _, hst, by simp [walkSegs]⟩
  | cons s rest ih =>
    intro st prev hst
    simp only [walkSegs]
    split_ifs with hr hdone hdone2
    · exact wipeLinear_invariant G liftPerMm finalZ st prev _ hqE heps hxy hst
    · obtain ⟨ha, hb, hc⟩ :=
        wipeLinear_invariant G liftPerMm finalZ st prev (G.pointToGcode (s.point + offset))
          hqE heps hxy hst
      obtain ⟨ha2, hb2, hc2⟩ := ih _ _ hb
      exact ⟨le_trans ha2 ha, hb2, by rw [hc2, hc]; ring⟩
    · exact wipeArc_invariant g G liftPerMm finalZ st prev _ s.radius s.ccw harc hqE heps
        hxy hst
    · obtain ⟨ha, hb, hc⟩ :=
        wipeArc_invariant g G liftPerMm finalZ st prev (G.pointToGcode (s.point + offset))
          s.radius s.ccw harc hqE heps hxy hst
      obtain ⟨ha2, hb2, hc2⟩ := ih _ _ hb
      exact ⟨le_trans ha2 ha, hb2, by rw [hc2, hc]; ring⟩

lemma wipe_sumDE_le (g : Geo) (G : GenParams) (tc : Bool) (w : Wipe)
    (harc : ∀ a b r, 0 ≤ g.arcAngle a b r) (hqE : ∀ x, 0 ≤ x → 0 ≤ G.quantE x)
    (heps : 0 ≤ G.eps) (hxy : 0 ≤ G.xyToE) :
    sumDE (Wipe.wipe g G tc w).1 ≤ max (G.retractToGo (targetRetractLength G tc)) 0 := by
  unfold Wipe.wipe
  by_cases ht : G.toolIsExtruder = false
  · rw [if_pos ht]
    show sumDE [] ≤ _
    rw [show sumDE [] = 0 by simp [sumDE]]
    exact le_max_right _ _
  · rw [if_neg ht]
    simp only []
    by_cases hc : 0 < G.retractToGo (targetRetractLength G tc) ∧ w.path ≠ []
    · rw [if_pos hc]
      obtain ⟨-, hb, hcc⟩ := walkSegs_invariant g G
        (G.xyToE * G.lift / G.retractToGo (targetRetractLength G tc)) (G.initialZ + G.lift)
        w.offset harc hqE heps hxy w.path
        ⟨[], G.retractToGo (targetRetractLength G tc), G.initialZ, 0⟩ G.lastPos
        (le_of_lt hc.1)
      rw [show sumDE ([] : List Move) = 0 by simp [sumDE]] at hcc
      show sumDE (walkSegs g G
        (G.xyToE * G.lift / G.retractToGo (targetRetractLength G tc)) (G.initialZ + G.lift)
        w.offset ⟨[], G.retractToGo (targetRetractLength G tc), G.initialZ, 0⟩ G.lastPos
        w.path).1.gcode ≤ _
      rw [hcc]
      refine le_trans ?_ (le_max_left _ _)
      simp only [WalkState.retract] at hb ⊢
      linarith
    · rw [if_neg hc]
      show sumDE [] ≤ _
      rw [show sumDE [] = 0 by simp [sumDE]]
      exact le_max_right _ _

/-- **C2.** Within one `wipe()` invocation the remaining retraction budget only
decreases at each `wipe_linear` / `wipe_arc` step and never becomes negative at all
(stronger than the claim's "not beyond epsilon"), and over the whole segment walk the
emitted extrusion deltas sum to exactly the consumed budget, hence never exceed the
initial retraction-to-go (the claim's epsilon tolerance is not even needed); at the
`wipe()` level the total emitted `dE` is bounded by the non-negative part of the
initial retraction-to-go. -/
theorem c2_retraction_budget_invariant (g : Geo) (G : GenParams) (liftPerMm finalZ : ℝ)
    (offset : Vec2) (st : WalkState) (prevQ p pr : Vec2) (radius : ℝ) (ccw : Bool)
    (segs : List Segment) (w : Wipe) (tc : Bool)
    (harc : ∀ a b r, 0 ≤ g.arcAngle a b r) (hqE : ∀ x, 0 ≤ x → 0 ≤ G.quantE x)
    (heps : 0 ≤ G.eps) (hxy : 0 ≤ G.xyToE) (hst : 0 ≤ st.retract) :
    ((wipeLinear G liftPerMm finalZ st prevQ p).1.retract ≤ st.retract ∧
        0 ≤ (wipeLinear G liftPerMm finalZ st prevQ p).1.retract) ∧
      ((wipeArc g G liftPerMm finalZ st prevQ p radius ccw).1.retract ≤ st.retract ∧
        0 ≤ (wipeArc g G liftPerMm finalZ st prevQ p radius ccw).1.retract) ∧
      ((walkSegs g G liftPerMm finalZ offset st pr segs).1.retract ≤ st.retract ∧
        0 ≤ (walkSegs g G liftPerMm finalZ offset st pr segs).1.retract ∧
        sumDE (walkSegs g G liftPerMm finalZ offset st pr segs).1.gcode =
          sumDE st.gcode +
            (st.retract - (walkSegs g G liftPerMm finalZ offset st pr segs).1.retract) ∧
        sumDE (walkSegs g G liftPerMm finalZ offset st pr segs).1.gcode - sumDE st.gcode ≤
          st.retract) ∧
      sumDE (Wipe.wipe g G tc w).1 ≤ max (G.retractToGo (targetRetractLength G tc)) 0 := by
  obtain ⟨hl1, hl2, -⟩ := wipeLinear_invariant G liftPerMm finalZ st prevQ p hqE heps hxy hst
  obtain ⟨ha1, ha2, -⟩ :=
    wipeArc_invariant g G liftPerMm finalZ st prevQ p radius ccw harc hqE heps hxy hst
  obtain ⟨hw1, hw2, hw3⟩ :=
    walkSegs_invariant g G liftPerMm finalZ offset harc hqE heps hxy segs st pr hst
  exact ⟨⟨hl1, hl2⟩, ⟨ha1, ha2⟩, ⟨hw1, hw2, hw3, by rw [hw3]; linarith⟩,
    wipe_sumDE_le g G tc w harc hqE heps hxy⟩

/-- Witness for C2 at a concrete instance. -/
theorem c2_witness :
    (0 : ℝ) ≤ (WalkState.mk [] 1 0 0).retract ∧
      sumDE (Wipe.wipe gC GC false wEn).1 ≤
        max (GC.retractToGo (targetRetractLength GC false)) 0 :=
  ⟨by norm_num,
    (c2_retraction_budget_invariant gC GC 0 0 ((0 : ℝ), (0 : ℝ)) (WalkState.mk [] 1 0 0)
      ((0 : ℝ), (0 : ℝ)) ((1 : ℝ), (0 : ℝ)) ((0 : ℝ), (0 : ℝ)) 0 false [] wEn false
      gC_arc_nonneg (fun _ hx => hx) (le_refl 0) (by norm_num [GC]) (by norm_num)).2.2.2⟩

/-! ## The seam-hiding point of `wipe_hide_seam` (C7) -/

lemma rot_sqnorm (θ : ℝ) (v : Vec2) : sqnorm (rot θ v) = sqnorm v := by
  unfold rot sqnorm
  have h := Real.sin_sq_add_cos_sq θ
  linear_combination (v.1 ^ 2 + v.2 ^ 2) * h

lemma rot_vnorm (θ : ℝ) (v : Vec2) : vnorm (rot θ v) = vnorm v := by
  unfold vnorm
  rw [rot_sqnorm]

lemma vnorm_eq_zero_iff (v : Vec2) : vnorm v = 0 ↔ v = 0 := by
  unfold vnorm
  rw [Real.sqrt_eq_zero (sqnorm_nonneg v)]
  unfold sqnorm
  constructor
  · intro h
    have h1 : v.1 ^ 2 = 0 := by nlinarith [sq_nonneg v.1, sq_nonneg v.2]
    have h2 : v.2 ^ 2 = 0 := by nlinarith [sq_nonneg v.1, sq_nonneg v.2]
    have : v = (v.1, v.2) := rfl
    rw [this, pow_eq_zero_iff (by norm_num : 2 ≠ 0) |>.1 h1,
      pow_eq_zero_iff (by norm_num : 2 ≠ 0) |>.1 h2]
    rfl
  · intro h
    rw [h]
    norm_num [Prod.fst_zero, Prod.snd_zero]

lemma normalize_vnorm (v : Vec2) (hv : v ≠ 0) : vnorm (normalize v) = 1 := by
  have hn : vnorm v ≠ 0 := fun h => hv ((vnorm_eq_zero_iff v).1 h)
  unfold normalize
  rw [vnorm_smul, abs_of_nonneg (inv_nonneg.2 (vnorm_nonneg v))]
  exact inv_mul_cancel₀ hn

/-- **C7 (amended).** Provided the loop is clipped — the first path's start differs
from the last path's end (for an exactly closed loop the forward direction is the
zero vector and the computed point degenerates onto the loop end; see the
counterexample) — `wipe_hide_seam` returns no value exactly when the loop's total
length is at most `2.5 * wipe_length`; otherwise it returns the loop end moved by
`wipe_length` along the forward direction rotated by the full winding-normalized
interior angle, a point at distance `wipe_length` from the loop's closing vertex. -/
theorem c7_wipe_hide_seam_geometry (g : Geo) (paths : List ExtrusionPath) (isHole : Bool)
    (wl : ℝ) (harc : ∀ a b r, 0 ≤ g.arcAngle a b r) (hwl : 0 < wl)
    (hdiff : (paths.headD default).firstPt ≠ (paths.getLastD default).lastPt) :
    (¬ 2.5 * wl < totalLen g paths → wipe_hide_seam g paths isHole wl = none) ∧
      (2.5 * wl < totalLen g paths →
        ∃ pPrev, sample_path_point_at_distance_from_end g paths wl = some pPrev ∧
          wipe_hide_seam g paths isHole wl =
            some ((paths.getLastD default).lastPt +
              wl • rot
                (normAngle isHole
                  (g.angleCCW
                    ((paths.headD default).firstPt - (paths.getLastD default).lastPt)
                    (pPrev - (paths.getLastD default).lastPt)))
                (normalize
                  ((paths.headD default).firstPt - (paths.getLastD default).lastPt))) ∧
          vnorm (((paths.getLastD default).lastPt +
              wl • rot
                (normAngle isHole
                  (g.angleCCW
                    ((paths.headD default).firstPt - (paths.getLastD default).lastPt)
                    (pPrev - (paths.getLastD default).lastPt)))
                (normalize
                  ((paths.headD default).firstPt - (paths.getLastD default).lastPt))) -
              (paths.getLastD default).lastPt) = wl) := by
  constructor
  · intro h25
    unfold wipe_hide_seam
    rw [if_neg]
    rw [longer_than_eq g harc]
    simpa using h25
  · intro h25
    have hlt : longer_than g paths (2.5 * wl) = true := by
      rw [longer_than_eq g harc]
      simpa using h25
    have hwlt : wl < totalLen g paths := by nlinarith
    have hsome : (sample_path_point_at_distance_from_end g paths wl).isSome = true := by
      show (sample_path_point_at_distance_from_start g paths wl).isSome = true
      rw [c10_sample_from_start_some_iff g harc paths wl]
      exact ⟨le_of_lt hwl, hwlt⟩
    obtain ⟨pPrev, hp⟩ := Option.isSome_iff_exists.1 hsome
    refine ⟨pPrev, hp, ?_, ?_⟩
    · unfold wipe_hide_seam
      rw [if_pos hlt]
      simp only []
      rw [if_neg, hp]
      rintro ⟨hl0, hnone⟩
      have hl1 : wl - vnorm ((paths.headD default).firstPt -
          (paths.getLastD default).lastPt) < totalLen g paths := by
        have := vnorm_nonneg ((paths.headD default).firstPt - (paths.getLastD default).lastPt)
        linarith
      have : (sample_path_point_at_distance_from_start g paths
          (wl - vnorm ((paths.headD default).firstPt -
            (paths.getLastD default).lastPt))).isSome = true := by
        rw [c10_sample_from_start_some_iff g harc]
        exact ⟨le_of_lt hl0, hl1⟩
      rw [Option.isNone_iff_eq_none] at hnone
      rw [hnone] at this
      simp at this
    · rw [add_sub_cancel_left, vnorm_smul, rot_vnorm, normalize_vnorm _ (sub_ne_zero.2 hdiff),
        abs_of_pos hwl]
      ring

/-- A closed square loop `(0,0) → (10,0) → (10,10) → (0,10) → (0,0)`, total length 40. -/
def pathSq : ExtrusionPath :=
  ⟨[⟨((0 : ℝ), (0 : ℝ)), 0, false⟩, ⟨((10 : ℝ), (0 : ℝ)), 0, false⟩,
    ⟨((10 : ℝ), (10 : ℝ)), 0, false⟩, ⟨((0 : ℝ), (10 : ℝ)), 0, false⟩,
    ⟨((0 : ℝ), (0 : ℝ)), 0, false⟩], false⟩

/-- **C7 (counterexample).** On an exactly closed loop (total length 40 > 2.5) with
`wipe_length = 1`, the forward direction from the closing vertex to the loop start is
the zero vector, so `wipe_hide_seam` returns the closing vertex itself — a point at
distance 0, not `wipe_length`, from the loop's closing vertex. (In C++ the
`normalized()` call yields NaN components there.) -/
theorem c7_counterexample :
    wipe_hide_seam gC [pathSq] false 1 = some (((0 : ℝ), (0 : ℝ)) : Vec2) ∧
      totalLen gC [pathSq] > 2.5 * 1 ∧
      vnorm ((((0 : ℝ), (0 : ℝ)) : Vec2) - ([pathSq].getLastD default).lastPt) ≠ 1 := by
  refine ⟨?_, ?_, ?_⟩
  · norm_num [wipe_hide_seam, longer_than, longerPaths, longerPoly, pathSq, segLen, vnorm,
      sqnorm, sqrt_hundred, sample_path_point_at_distance_from_start,
      sample_path_point_at_distance_from_end, sampleWalk, samplePoly, normAngle,
      ExtrusionPath.firstPt, ExtrusionPath.lastPt, normalize, rot, Prod.ext_iff]
  · norm_num [totalLen, pathSq, polyLen, polyLenFrom, segLen, vnorm, sqnorm, sqrt_hundred,
      Prod.ext_iff]
  · norm_num [pathSq, ExtrusionPath.lastPt, vnorm, sqnorm, Prod.ext_iff]

/-- An open (clipped) square path `(0,0) → (10,0) → (10,10) → (0,10)`, length 30. -/
def pathU : ExtrusionPath :=
  ⟨[⟨((0 : ℝ), (0 : ℝ)), 0, false⟩, ⟨((10 : ℝ), (0 : ℝ)), 0, false⟩,
    ⟨((10 : ℝ), (10 : ℝ)), 0, false⟩, ⟨((0 : ℝ), (10 : ℝ)), 0, false⟩], false⟩

/-- Witness for the amended C7 at a concrete clipped loop. -/
theorem c7_witness :
    (0 : ℝ) < 1 ∧
      ([pathU].headD default).firstPt ≠ ([pathU].getLastD default).lastPt ∧
      ((¬ 2.5 * 1 < totalLen gC [pathU] → wipe_hide_seam gC [pathU] false 1 = none) ∧
        (2.5 * 1 < totalLen gC [pathU] →
          ∃ pPrev, sample_path_point_at_distance_from_end gC [pathU] 1 = some pPrev ∧
            wipe_hide_seam gC [pathU] false 1 =
              some (([pathU].getLastD default).lastPt +
                (1 : ℝ) • rot
                  (normAngle false
                    (gC.angleCCW
                      (([pathU].headD default).firstPt - ([pathU].getLastD default).lastPt)
                      (pPrev - ([pathU].getLastD default).lastPt)))
                  (normalize
                    (([pathU].headD default).firstPt -
                      ([pathU].getLastD default).lastPt))) ∧
            vnorm ((([pathU].getLastD default).lastPt +
                (1 : ℝ) • rot
                  (normAngle false
                    (gC.angleCCW
                      (([pathU].headD default).firstPt - ([pathU].getLastD default).lastPt)
                      (pPrev - ([pathU].getLastD default).lastPt)))
                  (normalize
                    (([pathU].headD default).firstPt -
                      ([pathU].getLastD default).lastPt))) -
                ([pathU].getLastD default).lastPt) = 1)) :=
  ⟨by norm_num,
    by norm_num [pathU, ExtrusionPath.firstPt, ExtrusionPath.lastPt, Prod.ext_iff],
    c7_wipe_hide_seam_geometry gC [pathU] false 1 gC_arc_nonneg (by norm_num)
      (by norm_num [pathU, ExtrusionPath.firstPt, ExtrusionPath.lastPt, Prod.ext_iff])⟩

/-- Witness for the amended C6 at a concrete instance. -/
theorem c6_witness :
    wEn.enabled = true ∧
      (∃ k,
        (Wipe.set_path gC [pathBr] false wEn).path =
          setPathInitSegs [pathBr] false ++
            (((setPathRest [pathBr] false).take k).map (appendSel false)).flatten ∧
          (setPathAcc gC [pathBr] false wEn).appended = (setPathRest [pathBr] false).take k ∧
          (∀ p ∈ (setPathRest [pathBr] false).take k, p.isBridge = false) ∧
          (∀ j b, (setPathRest [pathBr] false)[j]? = some b → b.isBridge = true → k ≤ j)) :=
  ⟨rfl, c6_amended_no_bridge_beyond_initial gC [pathBr] false wEn rfl (by simp)⟩

end

end NematX

